import Mathlib

/-!
Verification of the incident-response collection tool (`ir_collect.py`).

This file shallowly embeds the parts of the program that the checked
properties speak about: the SHA-256 file hasher (`hash_files`), the CSV
writer (`write_csv`), the directory archiver (`compress_directory`), the
S3 uploader (`upload_to_s3`) and the connection collector
(`collect_connections`).  Bytes are natural numbers below 256, 32-bit
words are naturals reduced modulo 2^32, files and directories form an
explicit tree, and fallible operations return `Except`.
-/

namespace IRCollect

/-! ## 32-bit word arithmetic (Python ints reduced mod 2^32) -/

/-- Reduce a natural number to a 32-bit word. -/
def w32 (n : Nat) : Nat := n % 4294967296

/-- Addition modulo 2^32. -/
def add32 (a b : Nat) : Nat := (a + b) % 4294967296

/-- Right rotation of a 32-bit word by `n` bits. -/
def rotr (n x : Nat) : Nat := w32 ((x >>> n) ||| (x <<< (32 - n)))

/-- Logical right shift. -/
def shr (n x : Nat) : Nat := x >>> n

/-- Big sigma-0 of SHA-256. -/
def bigSigma0 (x : Nat) : Nat := (rotr 2 x) ^^^ (rotr 13 x) ^^^ (rotr 22 x)

/-- Big sigma-1 of SHA-256. -/
def bigSigma1 (x : Nat) : Nat := (rotr 6 x) ^^^ (rotr 11 x) ^^^ (rotr 25 x)

/-- Small sigma-0 of SHA-256. -/
def smallSigma0 (x : Nat) : Nat := (rotr 7 x) ^^^ (rotr 18 x) ^^^ (shr 3 x)

/-- Small sigma-1 of SHA-256. -/
def smallSigma1 (x : Nat) : Nat := (rotr 17 x) ^^^ (rotr 19 x) ^^^ (shr 10 x)

/-- Choice function of SHA-256: bits of `y` where `x` is set, else of `z`
(written via the standard xor identity to stay within Nat). -/
def chF (x y z : Nat) : Nat := z ^^^ (x &&& (y ^^^ z))

/-- Majority function of SHA-256, via the same xor identity. -/
def majF (x y z : Nat) : Nat := (y &&& z) ^^^ (x &&& (y ^^^ z))

/-! ## Chunked reading

`hash_files` reads each file with `iter(lambda: f.read(65536), b'')`:
the byte stream split into maximal chunks of 65536 bytes.  `chunksOf`
models the split for an arbitrary chunk size; the fuel argument makes
the recursion structural so the kernel can evaluate it. -/

/-- Split a list into maximal chunks of `k` elements, with explicit fuel. -/
def chunksOfAux : Nat → Nat → List α → List (List α)
  | _, _, [] => []
  | 0, _, l => [l]
  | _ + 1, 0, l => [l]
  | fuel + 1, k, l => l.take k :: chunksOfAux fuel k (l.drop k)

/-- Split a list into maximal chunks of `k` elements. -/
def chunksOf (k : Nat) (l : List α) : List (List α) := chunksOfAux l.length k l

/-! ## SHA-256 -/

/-- Round constants of SHA-256 (FIPS 180-4), written in decimal. -/
def sha256K : List Nat :=
  [1116352408, 1899447441, 3049323471, 3921009573, 961987163,
   1508970993, 2453635748, 2870763221, 3624381080, 310598401,
   607225278, 1426881987, 1925078388, 2162078206, 2614888103,
   3248222580, 3835390401, 4022224774, 264347078, 604807628,
   770255983, 1249150122, 1555081692, 1996064986, 2554220882,
   2821834349, 2952996808, 3210313671, 3336571891, 3584528711,
   113926993, 338241895, 666307205, 773529912, 1294757372,
   1396182291, 1695183700, 1986661051, 2177026350, 2456956037,
   2730485921, 2820302411, 3259730800, 3345764771, 3516065817,
   3600352804, 4094571909, 275423344, 430227734, 506948616,
   659060556, 883997877, 958139571, 1322822218, 1537002063,
   1747873779, 1955562222, 2024104815, 2227730452, 2361852424,
   2428436474, 2756734187, 3204031479, 3329325298]

/-- Working state of the SHA-256 compression function. -/
structure Sha256State where
  a : Nat
  b : Nat
  c : Nat
  d : Nat
  e : Nat
  f : Nat
  g : Nat
  h : Nat

/-- Initial hash value of SHA-256 (FIPS 180-4), written in decimal. -/
def sha256Init : Sha256State :=
  ⟨1779033703, 3144134277, 1013904242, 2773480762,
   1359893119, 2600822924, 528734635, 1541459225⟩

/-- Big-endian byte encoding of `v` on `n` bytes. -/
def beBytes : Nat → Nat → List Nat
  | 0, _ => []
  | n + 1, v => ((v >>> (8 * n)) % 256) :: beBytes n v

/-- Big-endian word value of a byte list. -/
def beWord (b : List Nat) : Nat := b.foldl (fun acc x => acc * 256 + x) 0

/-- SHA-256 padding: append 0x80, zeros to 56 mod 64, and the 64-bit
big-endian bit length. -/
def sha256pad (msg : List Nat) : List Nat :=
  msg ++ 128 :: List.replicate ((119 - msg.length % 64) % 64) 0
      ++ beBytes 8 (8 * msg.length)

/-- The 16 big-endian words of a 64-byte block. -/
def words16 (block : List Nat) : List Nat := (chunksOf 4 block).map beWord

/-- Extend 16 message words to the 64-entry message schedule. -/
def msgSchedule (w0 : List Nat) : List Nat :=
  (List.range 48).foldl
    (fun w _ =>
      let n := w.length
      w ++ [add32 (add32 (smallSigma1 (w.getD (n - 2) 0)) (w.getD (n - 7) 0))
              (add32 (smallSigma0 (w.getD (n - 15) 0)) (w.getD (n - 16) 0))])
    w0

/-- One round of the SHA-256 compression loop. -/
def sha256Round (ws : List Nat) (t : Sha256State) (i : Nat) : Sha256State :=
  let t1 := add32 t.h (add32 (bigSigma1 t.e)
    (add32 (chF t.e t.f t.g) (add32 (sha256K.getD i 0) (ws.getD i 0))))
  let t2 := add32 (bigSigma0 t.a) (majF t.a t.b t.c)
  ⟨add32 t1 t2, t.a, t.b, t.c, add32 t.d t1, t.e, t.f, t.g⟩

/-- The SHA-256 compression function on one 64-byte block. -/
def compressBlock (st : Sha256State) (block : List Nat) : Sha256State :=
  let ws := msgSchedule (words16 block)
  let fin := (List.range 64).foldl (sha256Round ws) st
  ⟨add32 st.a fin.a, add32 st.b fin.b, add32 st.c fin.c, add32 st.d fin.d,
   add32 st.e fin.e, add32 st.f fin.f, add32 st.g fin.g, add32 st.h fin.h⟩

/-- SHA-256 of a byte stream, as the final eight-word state. -/
def sha256Words (msg : List Nat) : Sha256State :=
  (chunksOf 64 (sha256pad msg)).foldl compressBlock sha256Init

/-- Lowercase hexadecimal digits, as character codes: the ten decimal
digits followed by the first six lowercase letters. -/
def hexDigits : List Char :=
  (List.range 10).map (fun i => Char.ofNat (48 + i))
    ++ (List.range 6).map (fun i => Char.ofNat (97 + i))

/-- Lowercase hex digit of the low nibble of `n`. -/
def nib (n : Nat) : Char := hexDigits.getD (n % 16) '0'

/-- Eight lowercase hex characters of a 32-bit word. -/
def hexWord (w : Nat) : List Char :=
  [nib (w >>> 28), nib (w >>> 24), nib (w >>> 20), nib (w >>> 16),
   nib (w >>> 12), nib (w >>> 8), nib (w >>> 4), nib w]

/-- Lowercase hex digest of SHA-256, as `hashlib.sha256(...).hexdigest()`
returns it. -/
def sha256hex (msg : List Nat) : String :=
  let st := sha256Words msg
  String.mk (hexWord st.a ++ hexWord st.b ++ hexWord st.c ++ hexWord st.d
    ++ hexWord st.e ++ hexWord st.f ++ hexWord st.g ++ hexWord st.h)

/-- The byte stream of the ASCII text "hello". -/
def helloBytes : List Nat := [104, 101, 108, 108, 111]

set_option maxRecDepth 20000 in
/-- Sanity anchor: the embedding reproduces the well-known SHA-256 digest
of "hello" (the vector the specification's scenario A quotes). -/
theorem sha256hex_hello :
    sha256hex helloBytes
      = "2cf24dba5fb0a30e26e83b2ac5b9e29e1b161e5c1fa7425e73043362938b9824" := by
  decide

/-! ## Chunked reading agrees with whole-stream hashing

`hashlib`'s `update` concatenates: feeding chunks one by one hashes the
concatenation of the chunks.  The accumulator is therefore modelled as
the byte stream fed so far. -/

/-- Feeding one chunk into the running SHA-256 accumulator. -/
def sha256Update (acc chunk : List Nat) : List Nat := acc ++ chunk

/-- Digest produced by the read loop of `hash_files`: split the stream
into chunks of `k` bytes, feed each chunk to the accumulator, finalize. -/
def streamDigest (k : Nat) (content : List Nat) : String :=
  sha256hex ((chunksOf k content).foldl sha256Update [])

theorem join_chunksOfAux {α : Type} (k : Nat) (hk : 0 < k) :
    ∀ (fuel : Nat) (l : List α), l.length ≤ fuel →
      (chunksOfAux fuel k l).flatten = l := by
  intro fuel
  induction fuel with
  | zero =>
    intro l hl
    cases l with
    | nil => simp [chunksOfAux]
    | cons x xs => simp at hl
  | succ n ih =>
    intro l hl
    cases l with
    | nil => simp [chunksOfAux]
    | cons x xs =>
      cases k with
      | zero => exact absurd hk (by simp)
      | succ k' =>
        simp only [chunksOfAux, List.flatten_cons]
        rw [ih ((x :: xs).drop (k' + 1)) (by simp at hl ⊢; omega)]
        exact List.take_append_drop _ _

theorem join_chunksOf {α : Type} (k : Nat) (hk : 0 < k) (l : List α) :
    (chunksOf k l).flatten = l :=
  join_chunksOfAux k hk l.length l le_rfl

theorem foldl_sha256Update (L : List (List Nat)) :
    ∀ acc, L.foldl sha256Update acc = acc ++ L.flatten := by
  induction L with
  | nil => intro acc; simp
  | cons x xs ih => intro acc; simp [sha256Update, ih (acc ++ x)]

/-- Reading in chunks of any positive size yields the digest of the whole
stream at once. -/
theorem streamDigest_eq (k : Nat) (hk : 0 < k) (content : List Nat) :
    streamDigest k content = sha256hex content := by
  rw [streamDigest, foldl_sha256Update, List.nil_append, join_chunksOf k hk]

/-! ## Shape of the hex digest -/

theorem nib_mem (n : Nat) : nib n ∈ hexDigits := by
  simp only [nib]
  have h : n % 16 < 16 := Nat.mod_lt _ (by norm_num)
  revert h
  generalize n % 16 = i
  intro h
  interval_cases i <;> decide

theorem mem_hexDigits_of_mem_hexWord (w : Nat) (c : Char)
    (hc : c ∈ hexWord w) : c ∈ hexDigits := by
  simp only [hexWord, List.mem_cons, List.not_mem_nil, or_false] at hc
  rcases hc with rfl | rfl | rfl | rfl | rfl | rfl | rfl | rfl <;> exact nib_mem _

/-- A digest is exactly 64 characters long. -/
theorem sha256hex_length (msg : List Nat) : (sha256hex msg).length = 64 := by
  simp [sha256hex, String.length, hexWord]

/-- Every character of a digest is a lowercase hex digit. -/
theorem sha256hex_lower (msg : List Nat) :
    ∀ c ∈ (sha256hex msg).data, c ∈ hexDigits := by
  intro c hc
  simp only [sha256hex, String.data, List.mem_append] at hc
  rcases hc with ((((((h | h) | h) | h) | h) | h) | h) | h <;>
    exact mem_hexDigits_of_mem_hexWord _ _ h

/-! ## Filesystem model

A path names either a regular file or a directory.  A file carries the
result of reading it: its byte content, or the OS error message raised
on open/read (`PermissionError`/`OSError`).  Directory entries are kept
in enumeration order. -/

mutual

inductive FSNode : Type where
  | file : Except String (List Nat) → FSNode
  | dir : FSEntries → FSNode

inductive FSEntries : Type where
  | nil : FSEntries
  | cons : String → FSNode → FSEntries → FSEntries

end

/-- A filesystem: what `os.path.exists` and the walk see at each path.
`none` means the path does not exist. -/
structure FileSys where
  lookup : String → Option FSNode

/-- Immediate regular files of a directory, in entry order, as
relative paths of one component (the filenames of an `os.walk` triple). -/
def walkRoot : FSEntries → List (List String × Except String (List Nat))
  | .nil => []
  | .cons n (.file d) rest => ([n], d) :: walkRoot rest
  | .cons _ (.dir _) rest => walkRoot rest

/-- Files found by recursing into each subdirectory, in entry order,
prefixed with the subdirectory name (the recursive `os.walk` triples). -/
def walkDirs : FSEntries → List (List String × Except String (List Nat))
  | .nil => []
  | .cons n (.dir es) rest =>
    ((walkRoot es ++ walkDirs es).map (fun pd => (n :: pd.1, pd.2)))
      ++ walkDirs rest
  | .cons _ (.file _) rest => walkDirs rest

/-- All regular files reached by `os.walk` from a node, with their
relative component paths, in traversal order.  `os.walk` on a
non-directory yields nothing. -/
def walkFiles : FSNode → List (List String × Except String (List Nat))
  | .file _ => []
  | .dir es => walkRoot es ++ walkDirs es

/-- Relative path components joined with the path separator, as
`os.path.join` builds them during the walk. -/
def joinRel : List String → String
  | [] => ""
  | [n] => n
  | n :: rest => n ++ "/" ++ joinRel rest

/-- Full path of a walked file: the target root joined with the
relative components. -/
def fullPath (target : String) (rel : List String) : String :=
  target ++ "/" ++ joinRel rel

/-- One row of `hashes.csv`: the dict `{'file': path, 'sha256': digest}`. -/
structure FileHashRecord where
  file : String
  sha256 : String
deriving DecidableEq

/-! ## The file hasher (`hash_files`) -/

/-- Loop body for one walked file: hash it on success, log on failure,
exactly as the `try`/`except` block does. -/
def hashStep (target : String)
    (acc : List FileHashRecord × List String)
    (pd : List String × Except String (List Nat)) :
    List FileHashRecord × List String :=
  match pd.2 with
  | .ok content =>
    (acc.1 ++ [⟨fullPath target pd.1, streamDigest 65536 content⟩], acc.2)
  | .error e =>
    (acc.1, acc.2 ++ ["Failed to hash " ++ fullPath target pd.1 ++ ": " ++ e])

/-- Loop body for one target: log a missing target and move on, else walk
it and process every file found. -/
def targetStep (fs : FileSys)
    (acc : List FileHashRecord × List String) (target : String) :
    List FileHashRecord × List String :=
  match fs.lookup target with
  | none => (acc.1, acc.2 ++ ["Target path not found: " ++ target])
  | some node => (walkFiles node).foldl (hashStep target) acc

/-- The hasher: SHA-256 records for files under the targets, plus the
log entries appended to the caller-provided sink. -/
def hash_files (fs : FileSys) (targets : List String) (log : List String) :
    List FileHashRecord × List String :=
  targets.foldl (targetStep fs) ([], log)

/-! ## Closed forms for `hash_files` -/

/-- Records one existing target contributes: one per successfully read
walked file. -/
def targetRecords (t : String) (node : FSNode) : List FileHashRecord :=
  (walkFiles node).filterMap fun pd =>
    match pd.2 with
    | .ok content => some ⟨fullPath t pd.1, streamDigest 65536 content⟩
    | .error _ => none

/-- Log entries one existing target contributes: one per walked file
whose read failed. -/
def targetLogs (t : String) (node : FSNode) : List String :=
  (walkFiles node).filterMap fun pd =>
    match pd.2 with
    | .ok _ => none
    | .error e => some ("Failed to hash " ++ fullPath t pd.1 ++ ": " ++ e)

/-- Per-target output pair. -/
def targetOut (fs : FileSys) (t : String) :
    List FileHashRecord × List String :=
  match fs.lookup t with
  | none => ([], ["Target path not found: " ++ t])
  | some node => (targetRecords t node, targetLogs t node)

theorem foldl_hashStep (t : String)
    (L : List (List String × Except String (List Nat))) :
    ∀ acc : List FileHashRecord × List String,
      L.foldl (hashStep t) acc
        = (acc.1 ++ (L.filterMap fun pd =>
              match pd.2 with
              | .ok content => some ⟨fullPath t pd.1, streamDigest 65536 content⟩
              | .error _ => none),
           acc.2 ++ (L.filterMap fun pd =>
              match pd.2 with
              | .ok _ => none
              | .error e => some ("Failed to hash " ++ fullPath t pd.1 ++ ": " ++ e))) := by
  induction L with
  | nil => intro acc; simp
  | cons pd rest ih =>
    intro acc
    rcases pd with ⟨rel, res⟩
    cases res with
    | ok content => simp [hashStep, ih]
    | error e => simp [hashStep, ih]

theorem targetStep_eq (fs : FileSys) (acc : List FileHashRecord × List String)
    (t : String) :
    targetStep fs acc t = (acc.1 ++ (targetOut fs t).1, acc.2 ++ (targetOut fs t).2) := by
  rcases h : fs.lookup t with _ | node
  · simp [targetStep, targetOut, h]
  · simp [targetStep, targetOut, h, foldl_hashStep, targetRecords, targetLogs]

theorem foldl_targetStep (fs : FileSys) (targets : List String) :
    ∀ acc : List FileHashRecord × List String,
      targets.foldl (targetStep fs) acc
        = (acc.1 ++ targets.flatMap (fun t => (targetOut fs t).1),
           acc.2 ++ targets.flatMap (fun t => (targetOut fs t).2)) := by
  induction targets with
  | nil => intro acc; simp
  | cons t rest ih =>
    intro acc
    simp [List.foldl_cons, targetStep_eq, ih, List.flatMap_cons]

/-- Closed form of `hash_files`: records and log entries concatenate the
per-target contributions in input order. -/
theorem hash_files_eq (fs : FileSys) (targets : List String) (log : List String) :
    hash_files fs targets log
      = (targets.flatMap (fun t => (targetOut fs t).1),
         log ++ targets.flatMap (fun t => (targetOut fs t).2)) := by
  simp [hash_files, foldl_targetStep]

/-! ## Concrete filesystems used as witnesses -/

/-- A filesystem with no paths at all. -/
def fsEmpty : FileSys := ⟨fun _ => none⟩

/-- A directory holding one readable file `a.txt` with content "hello". -/
def node1 : FSNode := .dir (.cons "a.txt" (.file (.ok helloBytes)) .nil)

/-- A filesystem mapping `/var/log` to `node1`. -/
def fs1 : FileSys := ⟨fun s => if s = "/var/log" then some node1 else none⟩

/-- A directory holding a readable file and an unreadable one. -/
def node2 : FSNode :=
  .dir (.cons "a.txt" (.file (.ok helloBytes))
    (.cons "secret" (.file (.error "Permission denied")) .nil))

/-- A filesystem mapping `/var/log` to `node2`. -/
def fs2 : FileSys := ⟨fun s => if s = "/var/log" then some node2 else none⟩

/-- A filesystem where the target is itself a regular file. -/
def fsFileTgt : FileSys :=
  ⟨fun s => if s = "/etc/hostname" then some (.file (.ok helloBytes)) else none⟩

/-! ## Claims about the file hasher -/

/-- C1: for every regular file `hash_files` successfully reads, the emitted
record's digest is the 64-character lowercase hexadecimal SHA-256 of the
exact byte stream read, and accumulating the stream in chunks (65536 bytes
in the code, any chunk size ≥ 1) yields the same digest as hashing the
whole stream at once. -/
theorem hash_files_digest_spec (fs : FileSys) (t : String) (node : FSNode)
    (log : List String) (rel : List String) (content : List Nat)
    (hn : fs.lookup t = some node)
    (hm : (rel, Except.ok content) ∈ walkFiles node) :
    (⟨fullPath t rel, streamDigest 65536 content⟩ : FileHashRecord)
        ∈ (hash_files fs [t] log).1
      ∧ streamDigest 65536 content = sha256hex content
      ∧ (∀ k, 0 < k → streamDigest k content = sha256hex content)
      ∧ (sha256hex content).length = 64
      ∧ (∀ c ∈ (sha256hex content).data, c ∈ hexDigits) := by
  refine ⟨?_, streamDigest_eq 65536 (by norm_num) content,
    fun k hk => streamDigest_eq k hk content,
    sha256hex_length content, sha256hex_lower content⟩
  rw [hash_files_eq]
  simp only [List.flatMap_cons, List.flatMap_nil, List.append_nil,
    targetOut, hn, targetRecords]
  exact List.mem_filterMap.mpr ⟨(rel, Except.ok content), hm, rfl⟩

/-- Witness for C1 at the spec's scenario A file: `a.txt` containing
"hello" under target `/var/log`. -/
theorem hash_files_digest_spec_witness :
    (⟨fullPath "/var/log" ["a.txt"], streamDigest 65536 helloBytes⟩ : FileHashRecord)
        ∈ (hash_files fs1 ["/var/log"] []).1
      ∧ streamDigest 65536 helloBytes = sha256hex helloBytes
      ∧ (∀ k, 0 < k → streamDigest k helloBytes = sha256hex helloBytes)
      ∧ (sha256hex helloBytes).length = 64
      ∧ (∀ c ∈ (sha256hex helloBytes).data, c ∈ hexDigits) :=
  hash_files_digest_spec fs1 "/var/log" node1 [] ["a.txt"] helloBytes rfl
    (List.Mem.head _)

/-- C3: on a target list of only nonexistent paths the hasher returns an
empty record list and appends exactly one log entry per missing target,
each naming that target, to the caller's sink; the empty target list
leaves the sink unchanged. -/
theorem hash_files_missing_targets (fs : FileSys) (targets : List String)
    (log : List String) (h : ∀ t ∈ targets, fs.lookup t = none) :
    hash_files fs targets log
      = ([], log ++ targets.map (fun t => "Target path not found: " ++ t)) := by
  have key : ∀ ts : List String, (∀ t ∈ ts, fs.lookup t = none) →
      ts.flatMap (fun t => (targetOut fs t).1) = []
        ∧ ts.flatMap (fun t => (targetOut fs t).2)
            = ts.map (fun t => "Target path not found: " ++ t) := by
    intro ts
    induction ts with
    | nil => intro _; simp
    | cons t rest ih =>
      intro hts
      rcases ih (fun x hx => hts x (List.mem_cons_of_mem _ hx)) with ⟨ha, hb⟩
      have ht := hts t (List.mem_cons_self _ _)
      have hout : targetOut fs t = ([], ["Target path not found: " ++ t]) := by
        simp [targetOut, ht]
      rw [List.flatMap_cons, List.flatMap_cons, ha, hb, hout]
      simp
  rw [hash_files_eq, (key targets h).1, (key targets h).2]

/-- Witness for C3: the spec's scenario B target `/no/such/dir` on an
empty filesystem. -/
theorem hash_files_missing_targets_witness :
    hash_files fsEmpty ["/no/such/dir"] []
      = ([], [] ++ ["/no/such/dir"].map (fun t => "Target path not found: " ++ t)) :=
  hash_files_missing_targets fsEmpty ["/no/such/dir"] [] (fun _ _ => rfl)

/-- C4: a file whose open or read fails contributes no record, contributes
exactly one log entry holding its path and the error text, and the
traversal continues: the output is exactly the records of the readable
files and the log entries of the unreadable ones, in traversal order. -/
theorem hash_files_error_isolated (fs : FileSys) (t : String) (node : FSNode)
    (log : List String) (hn : fs.lookup t = some node) :
    (hash_files fs [t] log).1 = targetRecords t node
      ∧ (hash_files fs [t] log).2 = log ++ targetLogs t node
      ∧ (∀ rel e, (rel, Except.error e) ∈ walkFiles node →
          ("Failed to hash " ++ fullPath t rel ++ ": " ++ e)
            ∈ (hash_files fs [t] log).2) := by
  have h1 : (hash_files fs [t] log).1 = targetRecords t node := by
    rw [hash_files_eq]
    simp [targetOut, hn]
  have h2 : (hash_files fs [t] log).2 = log ++ targetLogs t node := by
    rw [hash_files_eq]
    simp [targetOut, hn]
  refine ⟨h1, h2, ?_⟩
  intro rel e hm
  rw [h2]
  refine List.mem_append_right _ ?_
  exact List.mem_filterMap.mpr ⟨(rel, Except.error e), hm, rfl⟩

/-- Witness for C4: a directory with one readable and one unreadable file. -/
theorem hash_files_error_isolated_witness :
    (hash_files fs2 ["/var/log"] []).1 = targetRecords "/var/log" node2
      ∧ (hash_files fs2 ["/var/log"] []).2 = [] ++ targetLogs "/var/log" node2
      ∧ (∀ rel e, (rel, Except.error e) ∈ walkFiles node2 →
          ("Failed to hash " ++ fullPath "/var/log" rel ++ ": " ++ e)
            ∈ (hash_files fs2 ["/var/log"] []).2) :=
  hash_files_error_isolated fs2 "/var/log" node2 [] rfl

/-- C2 counterexample: on a target that is an existing regular file the
hasher emits no record at all — `os.walk` of a non-directory yields
nothing — so it does not emit exactly one record as claimed. -/
theorem hash_files_file_target_cex :
    ¬ ((hash_files fsFileTgt ["/etc/hostname"] []).1.length = 1) := by
  decide

/-- C2 amended: a target that exists but is a regular file (not a
directory) contributes no FileHashRecord and no LogEntry: the walk of a
non-directory visits nothing, so the record list is empty and the log
sink is returned unchanged. -/
theorem hash_files_file_target (fs : FileSys) (t : String) (log : List String)
    (content : Except String (List Nat))
    (h : fs.lookup t = some (.file content)) :
    hash_files fs [t] log = ([], log) := by
  rw [hash_files_eq]
  simp [targetOut, h, targetRecords, targetLogs, walkFiles]

/-- Witness for the amended C2: the file target `/etc/hostname`. -/
theorem hash_files_file_target_witness :
    hash_files fsFileTgt ["/etc/hostname"] [] = ([], []) :=
  hash_files_file_target fsFileTgt "/etc/hostname" [] (Except.ok helloBytes) rfl

/-! ## The tabular writer (`write_csv`)

Records are Python dicts: ordered key/value pairs.  A CSV file is its
rows of cell strings.  `csv.DictWriter` is constructed with the default
`extrasaction='raise'`: `writerow` raises `ValueError` when a row holds
keys outside `fieldnames`, and fills missing keys with the empty rest
value. -/

/-- A Python dict of strings, keys in insertion order. -/
abbrev PyDict := List (String × String)

/-- One `DictWriter.writerow`: reject rows with keys outside
`fieldnames`, otherwise emit the values in header order with missing
keys empty. -/
def writeRow (fieldnames : List String) (row : PyDict) :
    Except String (List String) :=
  if row.all (fun kv => fieldnames.contains kv.1) then
    Except.ok (fieldnames.map (fun f => ((row.lookup f).getD "")))
  else Except.error "dict contains fields not in fieldnames"

/-- The row loop of `write_csv`: stop at the first failing row. -/
def writeRows (fieldnames : List String) : List PyDict → Except String (List (List String))
  | [] => Except.ok []
  | r :: rs =>
    match writeRow fieldnames r with
    | .error e => .error e
    | .ok cells =>
      match writeRows fieldnames rs with
      | .error e => .error e
      | .ok rest => .ok (cells :: rest)

/-- The tabular writer: skip the write entirely on an empty record list,
else write the first record's keys as header followed by one row per
record.  The partially written file left behind when a row raises is not
modelled; the error is. -/
def write_csv (rows : List PyDict) (path : String)
    (disk : String → Option (List (List String))) :
    Except String (String → Option (List (List String))) :=
  match rows with
  | [] => Except.ok disk
  | first :: _ =>
    let fieldnames := first.map Prod.fst
    match writeRows fieldnames rows with
    | .ok body =>
      Except.ok (fun p => if p = path then some (fieldnames :: body) else disk p)
    | .error e => Except.error e

theorem writeRows_ok (fns : List String) (rs : List PyDict)
    (h : ∀ r ∈ rs, r.all (fun kv => fns.contains kv.1) = true) :
    writeRows fns rs
      = Except.ok (rs.map (fun r => fns.map (fun f => ((r.lookup f).getD "")))) := by
  induction rs with
  | nil => rfl
  | cons r rest ih =>
    have hr := h r (List.mem_cons_self _ _)
    rw [writeRows, writeRow, if_pos hr,
      ih (fun x hx => h x (List.mem_cons_of_mem _ hx)), List.map_cons]

theorem writeRows_err (fns : List String) (rs : List PyDict)
    (h : ∃ r ∈ rs, ¬ (r.all (fun kv => fns.contains kv.1) = true)) :
    writeRows fns rs = Except.error "dict contains fields not in fieldnames" := by
  induction rs with
  | nil => simp at h
  | cons r rest ih =>
    rcases h with ⟨x, hx, hbad⟩
    rcases List.mem_cons.mp hx with rfl | hx'
    · rw [writeRows, writeRow, if_neg hbad]
    · rw [writeRows]
      cases hr : writeRow fns r with
      | error e =>
        rw [writeRow] at hr
        by_cases hc : r.all (fun kv => fns.contains kv.1) = true
        · rw [if_pos hc] at hr; exact absurd hr (by simp)
        · rw [if_neg hc] at hr
          simp only [Except.error.injEq] at hr
          rw [← hr]
      | ok cells => rw [ih ⟨x, hx', hbad⟩]

/-! ## Claims about the tabular writer -/

/-- C9: with the empty record list `write_csv` performs no write at all:
it returns with the filesystem unchanged and creates no file. -/
theorem write_csv_empty (path : String)
    (disk : String → Option (List (List String))) :
    write_csv [] path disk = Except.ok disk := rfl

/-- Heterogeneous records used to exercise the extra-key path: the second
record has key `b` absent from the first. -/
def rowsHetero : List PyDict := [[("a", "1")], [("a", "2"), ("b", "3")]]

/-- C5 counterexample: a later record with a key absent from the first
record's keys makes `csv.DictWriter.writerow` (default
`extrasaction='raise'`) raise ValueError, so `write_csv` errors instead
of ignoring the extra key. -/
theorem write_csv_extra_key_cex :
    write_csv rowsHetero "hashes.csv" (fun _ => none)
      = Except.error "dict contains fields not in fieldnames" := rfl

/-- C5 amended: for a non-empty record list the header is exactly the
first record's keys followed by one row per record in input order, as
long as every record's keys fall within the first record's; a later
record with an extra key raises ValueError (the writer errors), rather
than the extra key being ignored. -/
theorem write_csv_header_first_keys (rows : List PyDict) (path : String)
    (disk : String → Option (List (List String))) (first : PyDict)
    (rest : List PyDict) (hrows : rows = first :: rest) :
    ((∀ r ∈ rows, r.all (fun kv => (first.map Prod.fst).contains kv.1) = true) →
        write_csv rows path disk
          = Except.ok (fun p => if p = path then
              some ((first.map Prod.fst) ::
                rows.map (fun r => (first.map Prod.fst).map
                  (fun f => ((r.lookup f).getD ""))))
              else disk p))
      ∧ ((∃ r ∈ rows, ¬ (r.all (fun kv => (first.map Prod.fst).contains kv.1) = true)) →
          write_csv rows path disk
            = Except.error "dict contains fields not in fieldnames") := by
  subst hrows
  constructor
  · intro hall
    rw [write_csv, writeRows_ok _ _ hall]
  · intro hbad
    rw [write_csv, writeRows_err _ _ hbad]

/-- Uniform records used as the well-behaved witness input. -/
def rowsUniform : List PyDict := [[("a", "1")], [("a", "2")]]

/-- Witness for the amended C5 on a concrete uniform record list. -/
theorem write_csv_header_first_keys_witness :
    ((∀ r ∈ rowsUniform,
        r.all (fun kv => ([("a", "1")].map Prod.fst).contains kv.1) = true) →
        write_csv rowsUniform "out.csv" (fun _ => none)
          = Except.ok (fun p => if p = "out.csv" then
              some (([("a", "1")].map Prod.fst) ::
                rowsUniform.map (fun r => ([("a", "1")].map Prod.fst).map
                  (fun f => ((r.lookup f).getD ""))))
              else (fun _ => none : String → Option (List (List String))) p))
      ∧ ((∃ r ∈ rowsUniform,
          ¬ (r.all (fun kv => ([("a", "1")].map Prod.fst).contains kv.1) = true)) →
          write_csv rowsUniform "out.csv" (fun _ => none)
            = Except.error "dict contains fields not in fieldnames") :=
  write_csv_header_first_keys rowsUniform "out.csv" (fun _ => none)
    [("a", "1")] [[("a", "2")]] rfl

/-! ## The connection collector (`collect_connections`)

A socket as `psutil` reports it: an optional owning pid, optional local
and remote endpoints, and a status string.  Sockets whose per-item reads
raise are silently skipped by the code and are not modelled. -/

/-- One enumerable socket. -/
structure PyConn where
  pid : Option Nat
  laddr : Option (String × Nat)
  raddr : Option (String × Nat)
  status : String

/-- Endpoint rendering: `ip:port`, or the empty string for no endpoint. -/
def addrStr : Option (String × Nat) → String
  | some a => a.1 ++ ":" ++ toString a.2
  | none => ""

/-- One output row.  The pid field is `str(conn.pid) if conn.pid else ''`:
Python truthiness maps both `None` and `0` to the empty string. -/
def connRow (c : PyConn) : PyDict :=
  [("pid", match c.pid with
      | some n => if n = 0 then "" else toString n
      | none => ""),
   ("local_address", addrStr c.laddr),
   ("remote_address", addrStr c.raddr),
   ("status", c.status)]

/-- The connection collector over the enumerated sockets. -/
def collect_connections (conns : List PyConn) : List PyDict :=
  conns.map connRow

/-- C10: a socket owned by pid 0 is recorded with an empty pid field,
exactly like a socket with no owning pid at all: the two produce
identical rows, so they are indistinguishable in the output. -/
theorem collect_connections_pid_zero (l r : Option (String × Nat)) (s : String) :
    collect_connections [⟨some 0, l, r, s⟩] = collect_connections [⟨none, l, r, s⟩]
      ∧ (connRow ⟨some 0, l, r, s⟩).lookup "pid" = some "" :=
  ⟨rfl, rfl⟩

/-! ## The uploader (`upload_to_s3`)

The client library is an explicit capability: `none` models `boto3`
failing to import.  `boto3.client('s3')` runs outside any `try`, so its
outcome is an `Except` whose error the function re-raises.  `upload_file`
either succeeds or raises: `BotoCoreError` and `NoCredentialsError` are
the exceptions the `except` tuple catches, while `S3UploadFailedError`
(boto3's wrapper around a `ClientError`, e.g. an auth or missing-bucket
failure) and a bare `ClientError` are not caught and propagate.  The
code performs no filesystem writes, so the local state passes through
untouched on every normal return; console reports are returned as a
message list and an uncaught exception is the `Except.error` outcome. -/

/-- Exceptions the upload path can raise. -/
inductive S3Exc : Type where
  | botoCore : String → S3Exc
  | noCredentials : S3Exc
  | s3UploadFailed : String → S3Exc
  | clientError : String → S3Exc

/-- Exceptions matched by `except (BotoCoreError, NoCredentialsError)`:
`S3UploadFailedError` and `ClientError` are subclasses of neither. -/
def isCaught : S3Exc → Bool
  | .botoCore _ => true
  | .noCredentials => true
  | .s3UploadFailed _ => false
  | .clientError _ => false

/-- Error text as Python would print the exception. -/
def describeS3 : S3Exc → String
  | .botoCore m => m
  | .noCredentials => "Unable to locate credentials"
  | .s3UploadFailed m => m
  | .clientError m => m

/-- An S3 client: the outcome of `upload_file` on a local path, bucket
and key. -/
structure S3Client where
  upload : String → String → String → Except S3Exc Unit

/-- Python `str.rstrip('/')`: remove trailing slash characters. -/
def rstripSlash (s : String) : String :=
  ⟨(s.data.reverse.dropWhile (fun c => c == '/')).reverse⟩

/-- Python `os.path.basename`: the part after the last path separator. -/
def basename (s : String) : String :=
  ⟨(s.data.reverse.takeWhile (fun c => c != '/')).reverse⟩

/-- The remote object key the uploader builds:
`f"{prefix.rstrip('/')}/{os.path.basename(zip_path)}"`. -/
def uploadKey (zip_path pfx : String) : String :=
  rstripSlash pfx ++ "/" ++ basename zip_path

/-- The uploader.  `boto3?` is `none` when the import failed, otherwise
the outcome of `boto3.client('s3')`, which the code runs outside the
`try` block; an exception raised there, or an upload exception outside
the `except` tuple, propagates to the caller. -/
def upload_to_s3 {δ : Type} (boto3? : Option (Except S3Exc S3Client)) (disk : δ)
    (zip_path bucket pfx : String) : Except S3Exc (δ × List String) :=
  match boto3? with
  | none => .ok (disk, ["boto3 is not installed; cannot upload to S3."])
  | some (.error e) => .error e
  | some (.ok s3) =>
    let key := uploadKey zip_path pfx
    match s3.upload zip_path bucket key with
    | .ok _ =>
      .ok (disk, ["Uploaded " ++ zip_path ++ " to s3://" ++ bucket ++ "/" ++ key])
    | .error e =>
      if isCaught e then .ok (disk, ["Failed to upload to S3: " ++ describeS3 e])
      else .error e

/-- Prefix the orchestrator passes to the uploader:
`args.s3_prefix or timestamp` — Python `or` substitutes the timestamp
for an empty prefix string. -/
def mainUploadPrefix (cliPfx timestamp : String) : String :=
  if cliPfx = "" then timestamp else cliPfx

/-! ## Claims about the uploader -/

/-- A client whose `upload_file` raises `S3UploadFailedError` wrapping an
access-denied `ClientError` — an exception outside the code's `except`
tuple. -/
def s3Denied : S3Client :=
  ⟨fun _ _ _ => Except.error (S3Exc.s3UploadFailed
    "Failed to upload output/x.zip to bkt/pre/x.zip: An error occurred (AccessDenied)")⟩

/-- C7 counterexample: a transmission failing with `S3UploadFailedError`
(the exception `upload_file` raises on an auth or bucket error) is not
matched by `except (BotoCoreError, NoCredentialsError)`, so the failure
propagates to the caller instead of being reported and swallowed. -/
theorem upload_to_s3_propagates_cex :
    upload_to_s3 (some (Except.ok s3Denied)) (0 : Nat) "output/x.zip" "bkt" "pre"
      = Except.error (S3Exc.s3UploadFailed
          "Failed to upload output/x.zip to bkt/pre/x.zip: An error occurred (AccessDenied)") :=
  rfl

/-- C7 amended: the uploader returns normally — reporting, with the
local filesystem state unchanged — when the client library is missing
and when the transmission fails with an exception the `except` tuple
catches (`BotoCoreError`, `NoCredentialsError`); every normal return
leaves the state unchanged.  But a failure outside that tuple
(`S3UploadFailedError`/`ClientError` from `upload_file`) propagates, as
does an exception raised by `boto3.client('s3')` outside the `try`. -/
theorem upload_to_s3_error_handling {δ : Type}
    (boto3? : Option (Except S3Exc S3Client)) (disk : δ)
    (zp bucket pfx : String) :
    (boto3? = none →
        upload_to_s3 boto3? disk zp bucket pfx
          = Except.ok (disk, ["boto3 is not installed; cannot upload to S3."]))
      ∧ (∀ s3 e, boto3? = some (Except.ok s3) →
          s3.upload zp bucket (uploadKey zp pfx) = .error e → isCaught e = true →
          upload_to_s3 boto3? disk zp bucket pfx
            = Except.ok (disk, ["Failed to upload to S3: " ++ describeS3 e]))
      ∧ (∀ res, upload_to_s3 boto3? disk zp bucket pfx = Except.ok res →
          res.1 = disk)
      ∧ (∀ s3 e, boto3? = some (Except.ok s3) →
          s3.upload zp bucket (uploadKey zp pfx) = .error e → isCaught e = false →
          upload_to_s3 boto3? disk zp bucket pfx = Except.error e)
      ∧ (∀ e, boto3? = some (Except.error e) →
          upload_to_s3 boto3? disk zp bucket pfx = Except.error e) := by
  refine ⟨?_, ?_, ?_, ?_, ?_⟩
  · intro h
    subst h
    rfl
  · intro s3 e hb he hc
    subst hb
    simp only [upload_to_s3, he, hc, if_true]
  · intro res hres
    rcases boto3? with _ | mk
    · simp only [upload_to_s3, Except.ok.injEq] at hres
      rw [← hres]
    · rcases mk with e | s3
      · simp only [upload_to_s3] at hres
        exact absurd hres (by simp)
      · simp only [upload_to_s3] at hres
        cases hu : s3.upload zp bucket (uploadKey zp pfx) with
        | ok u =>
          rw [hu] at hres
          have hres2 : (Except.ok (disk, ["Uploaded " ++ zp ++ " to s3://"
              ++ bucket ++ "/" ++ uploadKey zp pfx])
              : Except S3Exc (δ × List String)) = Except.ok res := hres
          simp only [Except.ok.injEq] at hres2
          rw [← hres2]
        | error e =>
          rw [hu] at hres
          have hres2 : (if isCaught e = true then
              Except.ok (disk, ["Failed to upload to S3: " ++ describeS3 e])
              else Except.error e) = Except.ok res := hres
          by_cases hc : isCaught e = true
          · rw [if_pos hc] at hres2
            simp only [Except.ok.injEq] at hres2
            rw [← hres2]
          · rw [if_neg hc] at hres2
            exact absurd hres2 (by simp)
  · intro s3 e hb he hc
    subst hb
    simp only [upload_to_s3, he, hc]
    simp
  · intro e hb
    subst hb
    rfl

/-- A client whose transmission always fails with a caught network
error. -/
def s3Fail : S3Client :=
  ⟨fun _ _ _ => Except.error (S3Exc.botoCore "Connection refused")⟩

/-- Witness for the amended C7: a caught transmission failure is
reported, the run continues, and the local state is unchanged. -/
theorem upload_to_s3_error_handling_witness :
    (upload_to_s3 (some (Except.ok s3Fail)) (0 : Nat) "output/x.zip" "bkt" "pre"
        = Except.ok ((0 : Nat), ["Failed to upload to S3: "
            ++ describeS3 (S3Exc.botoCore "Connection refused")]))
      ∧ (∀ res, upload_to_s3 (some (Except.ok s3Fail)) (0 : Nat)
            "output/x.zip" "bkt" "pre" = Except.ok res → res.1 = 0) :=
  ⟨(upload_to_s3_error_handling (some (Except.ok s3Fail)) (0 : Nat)
      "output/x.zip" "bkt" "pre").2.1
      s3Fail (S3Exc.botoCore "Connection refused") rfl rfl rfl,
   (upload_to_s3_error_handling (some (Except.ok s3Fail)) (0 : Nat)
      "output/x.zip" "bkt" "pre").2.2.1⟩

/-! ## The remote key against the specification's wording -/

/-- Trailing path separators removed, as the specification words it:
repeatedly drop a trailing separator. -/
def specStripTrailing (s : List Char) : List Char :=
  if h : s.getLast? = some '/' then specStripTrailing s.dropLast else s
termination_by s.length
decreasing_by
  cases s with
  | nil => simp at h
  | cons x xs => simp [List.length_dropLast]

/-- The remote key as the specification describes it:
`{prefix}/{archive filename}` with the prefix's trailing separators
normalized away. -/
def specRemoteKey (pfx name : String) : String :=
  String.mk (specStripTrailing pfx.data) ++ "/" ++ name

theorem specStripTrailing_nil : specStripTrailing [] = [] := by
  rw [specStripTrailing]
  simp

theorem specStripTrailing_concat (init : List Char) (c : Char) :
    specStripTrailing (init ++ [c])
      = if c = '/' then specStripTrailing init else init ++ [c] := by
  rw [specStripTrailing, List.getLast?_concat, List.dropLast_concat]
  by_cases hc : c = '/'
  · simp [hc]
  · simp [hc]

theorem listRstrip_eq_specStrip (cs : List Char) :
    (cs.reverse.dropWhile (fun c => c == '/')).reverse = specStripTrailing cs := by
  induction cs using List.reverseRecOn with
  | nil => simp [specStripTrailing_nil]
  | append_singleton init c ih =>
    rw [specStripTrailing_concat]
    by_cases hc : c = '/'
    · simp [hc, List.dropWhile_cons, ih]
    · simp [hc, List.dropWhile_cons]

/-- Python `rstrip('/')` implements the specification's trailing
separator removal. -/
theorem rstripSlash_eq_specStrip (s : String) :
    rstripSlash s = String.mk (specStripTrailing s.data) := by
  rcases s with ⟨cs⟩
  rw [rstripSlash]
  exact congrArg String.mk (listRstrip_eq_specStrip cs)

/-- C8: the remote object key equals the prefix with trailing path
separators removed, then `/`, then the archive's base filename; and with
no (empty) operator-supplied prefix the orchestrator substitutes the
session timestamp, while a non-empty prefix is used as given. -/
theorem uploadKey_spec (zp pfx ts : String) (hp : pfx ≠ "") :
    uploadKey zp pfx = specRemoteKey pfx (basename zp)
      ∧ mainUploadPrefix "" ts = ts
      ∧ mainUploadPrefix pfx ts = pfx := by
  refine ⟨?_, rfl, if_neg hp⟩
  rw [uploadKey, specRemoteKey, rstripSlash_eq_specStrip]

/-- Witness for C8 at a concrete archive path and prefix. -/
theorem uploadKey_spec_witness :
    uploadKey "output/20250101T000000Z.zip" "incidents/"
        = specRemoteKey "incidents/" (basename "output/20250101T000000Z.zip")
      ∧ mainUploadPrefix "" "20250101T000000Z" = "20250101T000000Z"
      ∧ mainUploadPrefix "incidents/" "20250101T000000Z" = "incidents/" :=
  uploadKey_spec "output/20250101T000000Z.zip" "incidents/" "20250101T000000Z"
    (by decide)

/-! ## The archiver (`compress_directory`)

The archive is the sequence of zip entries: arcname (the path relative
to the source root, components joined with the separator) and the bytes
read.  `zipfile.ZipFile.write` reads the file, so an unreadable file
raises and aborts the archive. -/

/-- One `zipf.write(full_path, arcname=rel_path)`: append the entry, or
abort the archive if reading the file raises. -/
def zipStep (acc : Except String (List (String × List Nat)))
    (pd : List String × Except String (List Nat)) :
    Except String (List (String × List Nat)) :=
  match acc with
  | .error e => .error e
  | .ok entries =>
    match pd.2 with
    | .ok content => .ok (entries ++ [(joinRel pd.1, content)])
    | .error e => .error e

/-- Walk the source directory and collect one archive entry per file. -/
def compress_directory (node : FSNode) :
    Except String (List (String × List Nat)) :=
  (walkFiles node).foldl zipStep (Except.ok [])

/-- A usable entry name: nonempty and free of the path separator. -/
def validName (n : String) : Bool := (n != "") && !(n.data.contains '/')

/-- Membership of a name among directory entries. -/
def hasName : FSEntries → String → Bool
  | .nil, _ => false
  | .cons m _ rest, n => (m == n) || hasName rest n

mutual

/-- Well-formed node: every directory below it is well-formed. -/
def validNode : FSNode → Bool
  | .file _ => true
  | .dir es => validEntries es

/-- Well-formed directory listing: usable, pairwise distinct names, and
well-formed children. -/
def validEntries : FSEntries → Bool
  | .nil => true
  | .cons n node rest =>
    validName n && validNode node && !(hasName rest n) && validEntries rest

end

/-- First entry with a given name. -/
def findEntry : FSEntries → String → Option FSNode
  | .nil, _ => none
  | .cons m node rest, n => if m = n then some node else findEntry rest n

/-- Resolve a relative component path in a tree, as extracting the
archive entry at that path and reading the file would. -/
def lookupPath : FSNode → List String → Option (Except String (List Nat))
  | node, [] =>
    match node with
    | .file d => some d
    | .dir _ => none
  | node, n :: rest =>
    match node with
    | .file _ => none
    | .dir es =>
      match findEntry es n with
      | some child => lookupPath child rest
      | none => none

theorem lookupPath_dir_nil (es : FSEntries) : lookupPath (.dir es) [] = none := rfl

theorem lookupPath_dir_cons (es : FSEntries) (n : String) (rest : List String) :
    lookupPath (.dir es) (n :: rest)
      = match findEntry es n with
        | some child => lookupPath child rest
        | none => none := rfl

theorem lookupPath_file (d : Except String (List Nat)) (rel : List String) :
    lookupPath (.file d) rel = if rel = [] then some d else none := by
  cases rel <;> rfl

theorem findEntry_hasName (es : FSEntries) (n : String) (node : FSNode)
    (h : findEntry es n = some node) : hasName es n = true := by
  cases es with
  | nil => simp [findEntry] at h
  | cons m child rest =>
    rw [findEntry] at h
    by_cases hm : m = n
    · simp [hasName, hm]
    · rw [if_neg hm] at h
      simp [hasName, findEntry_hasName rest n node h]
termination_by sizeOf es

theorem validEntries_cons (n : String) (node : FSNode) (rest : FSEntries)
    (h : validEntries (.cons n node rest) = true) :
    validName n = true ∧ validNode node = true
      ∧ hasName rest n = false ∧ validEntries rest = true := by
  rw [validEntries] at h
  simp only [Bool.and_eq_true, Bool.not_eq_true'] at h
  exact ⟨h.1.1.1, h.1.1.2, h.1.2, h.2⟩

theorem lookupPath_cons_of_rest (n : String) (child : FSNode) (rest : FSEntries)
    (hhas : hasName rest n = false) (rel : List String)
    (r : Except String (List Nat))
    (h : lookupPath (.dir rest) rel = some r) :
    lookupPath (.dir (.cons n child rest)) rel = some r := by
  cases rel with
  | nil => rw [lookupPath_dir_nil] at h; simp at h
  | cons m tl =>
    rw [lookupPath_dir_cons] at h ⊢
    rw [findEntry]
    by_cases hm : n = m
    · subst hm
      cases hfe : findEntry rest n with
      | none => rw [hfe] at h; simp at h
      | some c' =>
        have hhn := findEntry_hasName rest n c' hfe
        rw [hhn] at hhas
        simp at hhas
    · rw [if_neg hm]
      exact h

theorem lookupPath_cons_to_rest (n : String) (child : FSNode) (rest : FSEntries)
    (m : String) (tl : List String) (r : Except String (List Nat)) (hm : n ≠ m)
    (h : lookupPath (.dir (.cons n child rest)) (m :: tl) = some r) :
    lookupPath (.dir rest) (m :: tl) = some r := by
  rw [lookupPath_dir_cons, findEntry, if_neg hm] at h
  rw [lookupPath_dir_cons]
  exact h

theorem mem_map_consPrefix (n : String)
    (L : List (List String × Except String (List Nat)))
    (rel : List String) (r : Except String (List Nat)) :
    ((rel, r) ∈ L.map (fun pd => (n :: pd.1, pd.2)))
      ↔ ∃ tl, rel = n :: tl ∧ (tl, r) ∈ L := by
  constructor
  · intro h
    rcases List.mem_map.mp h with ⟨⟨a, b⟩, hab, heq⟩
    injection heq with h1 h2
    subst h2
    exact ⟨a, h1.symm, hab⟩
  · rintro ⟨tl, rfl, htl⟩
    exact List.mem_map.mpr ⟨(tl, r), htl, rfl⟩

/-- Walked files are exactly the files extraction resolves: membership in
the walk of a well-formed directory coincides with path resolution. -/
theorem walk_mem_iff (es : FSEntries) (hv : validEntries es = true)
    (rel : List String) (r : Except String (List Nat)) :
    ((rel, r) ∈ walkRoot es ++ walkDirs es)
      ↔ lookupPath (.dir es) rel = some r := by
  cases es with
  | nil =>
    cases rel <;>
      simp [walkRoot, walkDirs, lookupPath_dir_nil, lookupPath_dir_cons, findEntry]
  | cons n child rest =>
    obtain ⟨hn, hchild, hhas, hrest⟩ := validEntries_cons _ _ _ hv
    cases child with
    | file d =>
      simp only [walkRoot, walkDirs, List.cons_append]
      constructor
      · intro hmem
        rcases List.mem_cons.mp hmem with heq | hmem'
        · injection heq with h1 h2
          subst h1
          subst h2
          rw [lookupPath_dir_cons, findEntry, if_pos rfl]
          rfl
        · exact lookupPath_cons_of_rest n _ rest hhas rel r
            ((walk_mem_iff rest hrest rel r).mp hmem')
      · intro hl
        cases rel with
        | nil => rw [lookupPath_dir_nil] at hl; simp at hl
        | cons m tl =>
          by_cases hm : n = m
          · subst hm
            rw [lookupPath_dir_cons, findEntry, if_pos rfl] at hl
            have hl2 : lookupPath (FSNode.file d) tl = some r := hl
            rw [lookupPath_file] at hl2
            by_cases ht : tl = []
            · rw [if_pos ht] at hl2
              subst ht
              have hd : d = r := by simpa using hl2
              subst hd
              exact List.mem_cons_self _ _
            · rw [if_neg ht] at hl2
              simp at hl2
          · have hl' := lookupPath_cons_to_rest n _ rest m tl r hm hl
            exact List.mem_cons_of_mem _
              ((walk_mem_iff rest hrest (m :: tl) r).mpr hl')
    | dir es' =>
      have hes' : validEntries es' = true := by rw [validNode] at hchild; exact hchild
      simp only [walkRoot, walkDirs]
      constructor
      · intro hmem
        rcases List.mem_append.mp hmem with hA | hBC
        · exact lookupPath_cons_of_rest n _ rest hhas rel r
            ((walk_mem_iff rest hrest rel r).mp (List.mem_append_left _ hA))
        · rcases List.mem_append.mp hBC with hM | hC
          · rcases (mem_map_consPrefix n _ rel r).mp hM with ⟨tl, rfl, htl⟩
            have hsub := (walk_mem_iff es' hes' tl r).mp htl
            rw [lookupPath_dir_cons, findEntry, if_pos rfl]
            exact hsub
          · exact lookupPath_cons_of_rest n _ rest hhas rel r
              ((walk_mem_iff rest hrest rel r).mp (List.mem_append_right _ hC))
      · intro hl
        cases rel with
        | nil => rw [lookupPath_dir_nil] at hl; simp at hl
        | cons m tl =>
          by_cases hm : n = m
          · subst hm
            rw [lookupPath_dir_cons, findEntry, if_pos rfl] at hl
            have htl := (walk_mem_iff es' hes' tl r).mpr hl
            refine List.mem_append_right _ (List.mem_append_left _ ?_)
            exact (mem_map_consPrefix n _ _ r).mpr ⟨tl, rfl, htl⟩
          · have hl' := lookupPath_cons_to_rest n _ rest m tl r hm hl
            have hmem' := (walk_mem_iff rest hrest (m :: tl) r).mpr hl'
            rcases List.mem_append.mp hmem' with hA | hC
            · exact List.mem_append_left _ hA
            · exact List.mem_append_right _ (List.mem_append_right _ hC)
termination_by sizeOf es

theorem hasName_cons (m : String) (node : FSNode) (rest : FSEntries) (n : String) :
    hasName (.cons m node rest) n = ((m == n) || hasName rest n) := rfl

theorem mem_keys_consPrefix (n : String)
    (L : List (List String × Except String (List Nat))) (rel : List String) :
    (rel ∈ (L.map (fun pd => (n :: pd.1, pd.2))).map Prod.fst)
      ↔ ∃ tl, rel = n :: tl ∧ tl ∈ L.map Prod.fst := by
  rw [List.map_map]
  constructor
  · intro h
    rcases List.mem_map.mp h with ⟨pd, hpd, heq⟩
    exact ⟨pd.1, by simpa using heq.symm, List.mem_map.mpr ⟨pd, hpd, rfl⟩⟩
  · rintro ⟨tl, rfl, htl⟩
    rcases List.mem_map.mp htl with ⟨pd, hpd, heq⟩
    exact List.mem_map.mpr ⟨pd, hpd, by simp [heq]⟩

/-- Every walked key is a component list headed by the name of an entry
of the directory. -/
theorem walk_key_shape (es : FSEntries) (rel : List String)
    (h : rel ∈ (walkRoot es ++ walkDirs es).map Prod.fst) :
    ∃ m tl, rel = m :: tl ∧ hasName es m = true := by
  cases es with
  | nil => simp [walkRoot, walkDirs] at h
  | cons n child rest =>
    cases child with
    | file d =>
      simp only [walkRoot, walkDirs, List.cons_append, List.map_cons,
        List.mem_cons] at h
      rcases h with rfl | h'
      · exact ⟨n, [], rfl, by simp [hasName_cons]⟩
      · rcases walk_key_shape rest rel h' with ⟨m, tl, rfl, hm⟩
        exact ⟨m, tl, rfl, by simp [hasName_cons, hm]⟩
    | dir es' =>
      simp only [walkRoot, walkDirs] at h
      rw [List.map_append, List.map_append] at h
      rcases List.mem_append.mp h with hA | hMC
      · rcases walk_key_shape rest rel
          (by rw [List.map_append]; exact List.mem_append_left _ hA) with
          ⟨m, tl, rfl, hm⟩
        exact ⟨m, tl, rfl, by simp [hasName_cons, hm]⟩
      rcases List.mem_append.mp hMC with hM | hC
      · rcases (mem_keys_consPrefix n _ rel).mp hM with ⟨tl, rfl, _⟩
        exact ⟨n, tl, rfl, by simp [hasName_cons]⟩
      · rcases walk_key_shape rest rel
          (by rw [List.map_append]; exact List.mem_append_right _ hC) with
          ⟨m, tl, rfl, hm⟩
        exact ⟨m, tl, rfl, by simp [hasName_cons, hm]⟩
termination_by sizeOf es

/-- In a well-formed tree every walked key is nonempty and made of
usable names. -/
theorem walk_key_valid (es : FSEntries) (hv : validEntries es = true)
    (rel : List String) (h : rel ∈ (walkRoot es ++ walkDirs es).map Prod.fst) :
    rel ≠ [] ∧ ∀ m ∈ rel, validName m = true := by
  cases es with
  | nil => simp [walkRoot, walkDirs] at h
  | cons n child rest =>
    obtain ⟨hn, hchild, hhas, hrest⟩ := validEntries_cons _ _ _ hv
    cases child with
    | file d =>
      simp only [walkRoot, walkDirs, List.cons_append, List.map_cons,
        List.mem_cons] at h
      rcases h with rfl | h'
      · refine ⟨by simp, ?_⟩
        intro m hm
        rw [List.mem_singleton.mp hm]
        exact hn
      · exact walk_key_valid rest hrest rel h'
    | dir es' =>
      have hes' : validEntries es' = true := by rw [validNode] at hchild; exact hchild
      simp only [walkRoot, walkDirs] at h
      rw [List.map_append, List.map_append] at h
      rcases List.mem_append.mp h with hA | hMC
      · exact walk_key_valid rest hrest rel
          (by rw [List.map_append]; exact List.mem_append_left _ hA)
      rcases List.mem_append.mp hMC with hM | hC
      · rcases (mem_keys_consPrefix n _ rel).mp hM with ⟨tl, rfl, htl⟩
        have := walk_key_valid es' hes' tl htl
        refine ⟨by simp, ?_⟩
        intro m hm
        rcases List.mem_cons.mp hm with rfl | hm'
        · exact hn
        · exact this.2 m hm'
      · exact walk_key_valid rest hrest rel
          (by rw [List.map_append]; exact List.mem_append_right _ hC)
termination_by sizeOf es

/-- In a well-formed tree the walked keys are pairwise distinct. -/
theorem walk_keys_nodup (es : FSEntries) (hv : validEntries es = true) :
    ((walkRoot es ++ walkDirs es).map Prod.fst).Nodup := by
  cases es with
  | nil => simp [walkRoot, walkDirs]
  | cons n child rest =>
    obtain ⟨hn, hchild, hhas, hrest⟩ := validEntries_cons _ _ _ hv
    cases child with
    | file d =>
      simp only [walkRoot, walkDirs, List.cons_append, List.map_cons]
      rw [List.nodup_cons]
      refine ⟨?_, walk_keys_nodup rest hrest⟩
      intro hmem
      rcases walk_key_shape rest [n] hmem with ⟨m, tl, heq, hm⟩
      injection heq with h1 h2
      subst h1
      rw [hm] at hhas
      simp at hhas
    | dir es' =>
      have hes' : validEntries es' = true := by rw [validNode] at hchild; exact hchild
      have hsidenotn : ∀ rel ∈ (walkRoot rest ++ walkDirs rest).map Prod.fst,
          ∀ tl, rel ≠ n :: tl := by
        intro rel hrel tl heq
        rcases walk_key_shape rest rel hrel with ⟨m, tl', rfl, hm⟩
        injection heq with h1 _
        subst h1
        rw [hm] at hhas
        simp at hhas
      have hA_nodup_C := walk_keys_nodup rest hrest
      rw [List.map_append, List.nodup_append] at hA_nodup_C
      obtain ⟨hA, hC, hAC⟩ := hA_nodup_C
      have hM : (((walkRoot es' ++ walkDirs es').map
          (fun pd => (n :: pd.1, pd.2))).map Prod.fst).Nodup := by
        rw [List.map_map]
        have : (Prod.fst ∘ fun pd : List String × Except String (List Nat) =>
            (n :: pd.1, pd.2)) = (fun pd => n :: pd.1) := rfl
        rw [this]
        have hinner := walk_keys_nodup es' hes'
        have : (fun pd : List String × Except String (List Nat) => n :: pd.1)
            = (fun l : List String => n :: l) ∘ Prod.fst := rfl
        rw [this, ← List.map_map]
        exact hinner.map (fun a b hab => by injection hab)
      simp only [walkRoot, walkDirs]
      rw [List.map_append, List.map_append, List.nodup_append]
      refine ⟨hA, ?_, ?_⟩
      · rw [List.nodup_append]
        refine ⟨hM, hC, ?_⟩
        intro rel hrelM hrelC
        rcases (mem_keys_consPrefix n _ rel).mp hrelM with ⟨tl, rfl, _⟩
        exact hsidenotn (n :: tl)
          (by rw [List.map_append]; exact List.mem_append_right _ hrelC) tl rfl
      · intro rel hrelA hrelMC
        rcases List.mem_append.mp hrelMC with hrelM | hrelC
        · rcases (mem_keys_consPrefix n _ rel).mp hrelM with ⟨tl, rfl, _⟩
          exact hsidenotn (n :: tl)
            (by rw [List.map_append]; exact List.mem_append_left _ hrelA) tl rfl
        · exact hAC hrelA hrelC
termination_by sizeOf es

/-! ## Joined relative paths are unambiguous -/

theorem validName_parts (n : String) (h : validName n = true) :
    n.data ≠ [] ∧ '/' ∉ n.data := by
  rw [validName] at h
  simp only [Bool.and_eq_true, bne_iff_ne, ne_eq, Bool.not_eq_true'] at h
  constructor
  · intro hd
    apply h.1
    exact String.ext hd
  · intro hmem
    have hc : n.data.contains '/' = true := List.elem_eq_true_of_mem hmem
    simp [hc] at h
    exact h.2 hmem

theorem sep_split (xs : List Char) :
    ∀ ys us vs : List Char, '/' ∉ xs → '/' ∉ ys →
      xs ++ '/' :: us = ys ++ '/' :: vs → xs = ys ∧ us = vs := by
  induction xs with
  | nil =>
    intro ys us vs _ hy h
    cases ys with
    | nil => simpa using h
    | cons y ys' =>
      simp only [List.nil_append, List.cons_append, List.cons.injEq] at h
      exact absurd (h.1 ▸ List.mem_cons_self y ys') (by simpa [← h.1] using hy)
  | cons x xs' ih =>
    intro ys us vs hx hy h
    cases ys with
    | nil =>
      simp only [List.nil_append, List.cons_append, List.cons.injEq] at h
      exact absurd (h.1 ▸ List.mem_cons_self x xs') (by simpa [h.1] using hx)
    | cons y ys' =>
      simp only [List.cons_append, List.cons.injEq] at h
      obtain ⟨hxy, htail⟩ := h
      have hx' : '/' ∉ xs' := fun hm => hx (List.mem_cons_of_mem _ hm)
      have hy' : '/' ∉ ys' := fun hm => hy (List.mem_cons_of_mem _ hm)
      obtain ⟨h1, h2⟩ := ih ys' us vs hx' hy' htail
      exact ⟨by rw [hxy, h1], h2⟩

theorem joinRel_data_cons (n m : String) (tl : List String) :
    (joinRel (n :: m :: tl)).data = n.data ++ '/' :: (joinRel (m :: tl)).data := by
  show (n ++ "/" ++ joinRel (m :: tl)).data = _
  rw [String.data_append, String.data_append, List.append_assoc]
  rfl

theorem joinRel_inj (rel1 : List String) :
    ∀ rel2 : List String, rel1 ≠ [] → rel2 ≠ [] →
      (∀ m ∈ rel1, validName m = true) → (∀ m ∈ rel2, validName m = true) →
      joinRel rel1 = joinRel rel2 → rel1 = rel2 := by
  induction rel1 with
  | nil => intro rel2 h1; exact absurd rfl h1
  | cons n1 r1 ih =>
    intro rel2 _ h2ne hv1 hv2 heq
    cases rel2 with
    | nil => exact absurd rfl h2ne
    | cons n2 r2 =>
      obtain ⟨hn1ne, hn1s⟩ := validName_parts n1 (hv1 n1 (List.mem_cons_self _ _))
      obtain ⟨hn2ne, hn2s⟩ := validName_parts n2 (hv2 n2 (List.mem_cons_self _ _))
      cases r1 with
      | nil =>
        cases r2 with
        | nil =>
          show [n1] = [n2]
          rw [show joinRel [n1] = n1 from rfl, show joinRel [n2] = n2 from rfl] at heq
          rw [heq]
        | cons m2 t2 =>
          exfalso
          have hd := congrArg String.data heq
          rw [show joinRel [n1] = n1 from rfl, joinRel_data_cons] at hd
          exact hn1s (hd ▸ List.mem_append_right _ (List.mem_cons_self _ _))
      | cons m1 t1 =>
        cases r2 with
        | nil =>
          exfalso
          have hd := congrArg String.data heq
          rw [show joinRel [n2] = n2 from rfl, joinRel_data_cons] at hd
          exact hn2s (hd ▸ List.mem_append_right _ (List.mem_cons_self _ _))
        | cons m2 t2 =>
          have hd := congrArg String.data heq
          rw [joinRel_data_cons, joinRel_data_cons] at hd
          obtain ⟨hns, htails⟩ := sep_split n1.data n2.data _ _ hn1s hn2s hd
          have hn : n1 = n2 := String.ext hns
          have ht : joinRel (m1 :: t1) = joinRel (m2 :: t2) := String.ext htails
          have := ih (m2 :: t2) (by simp) (by simp)
            (fun m hm => hv1 m (List.mem_cons_of_mem _ hm))
            (fun m hm => hv2 m (List.mem_cons_of_mem _ hm)) ht
          rw [hn, this]

/-- A joined walked path never starts with the separator: archive paths
are relative, not absolute. -/
theorem joinRel_not_absolute (rel : List String) (hne : rel ≠ [])
    (hv : ∀ m ∈ rel, validName m = true) :
    (joinRel rel).data.head? ≠ some '/' := by
  cases rel with
  | nil => exact absurd rfl hne
  | cons n tl =>
    obtain ⟨hnne, hns⟩ := validName_parts n (hv n (List.mem_cons_self _ _))
    have hhead : (joinRel (n :: tl)).data.head? = n.data.head? := by
      cases tl with
      | nil => rfl
      | cons m t2 =>
        rw [joinRel_data_cons]
        cases hd : n.data with
        | nil => exact absurd hd hnne
        | cons c cs => simp [hd]
    cases hd : n.data with
    | nil => exact absurd hd hnne
    | cons c cs =>
      rw [hhead, hd]
      simp only [List.head?_cons, ne_eq, Option.some.injEq]
      intro hc
      exact hns (by simp [hd, hc])

/-! ## Lookup in an archive with distinct keys -/

theorem lookup_eq_some_iff_mem {β : Type} (l : List (String × β)) (k : String)
    (v : β) (hk : (l.map Prod.fst).Nodup) :
    l.lookup k = some v ↔ (k, v) ∈ l := by
  induction l with
  | nil => simp [List.lookup]
  | cons p rest ih =>
    rcases p with ⟨a, b⟩
    rw [List.map_cons, List.nodup_cons] at hk
    obtain ⟨hka, hnd⟩ := hk
    by_cases hk_eq : k = a
    · subst hk_eq
      simp only [List.lookup, beq_self_eq_true]
      constructor
      · intro h
        have hbv : b = v := by simpa using h
        subst hbv
        exact List.mem_cons_self _ _
      · intro h
        rcases List.mem_cons.mp h with heq | hmem
        · injection heq with _ h2
          rw [h2]
        · exact absurd (List.mem_map.mpr ⟨(k, v), hmem, rfl⟩) hka
    · have hbeq : (k == a) = false := beq_eq_false_iff_ne.mpr hk_eq
      simp only [List.lookup, hbeq]
      rw [ih hnd]
      constructor
      · exact fun h => List.mem_cons_of_mem _ h
      · intro h
        rcases List.mem_cons.mp h with heq | hmem
        · injection heq with h1 _
          exact absurd h1 hk_eq
        · exact hmem

/-! ## Characterizing a successful archive -/

/-- Entries of a fully readable walk: arcname and content per file, or
`none` at the first unreadable file. -/
def okEntries : List (List String × Except String (List Nat)) →
    Option (List (String × List Nat))
  | [] => some []
  | (rel, .ok c) :: rest => (okEntries rest).map (fun l => (joinRel rel, c) :: l)
  | (_, .error _) :: _ => none

theorem foldl_zipStep_error (L : List (List String × Except String (List Nat)))
    (e : String) : L.foldl zipStep (Except.error e) = Except.error e := by
  induction L with
  | nil => rfl
  | cons pd rest ih => rw [List.foldl_cons]; exact ih

theorem foldl_zipStep_ok (L : List (List String × Except String (List Nat))) :
    ∀ acc ar, L.foldl zipStep (Except.ok acc) = Except.ok ar →
      ∃ l, okEntries L = some l ∧ ar = acc ++ l := by
  induction L with
  | nil =>
    intro acc ar h
    rw [List.foldl_nil] at h
    have : acc = ar := by simpa using h
    exact ⟨[], rfl, by simp [this]⟩
  | cons pd rest ih =>
    intro acc ar h
    rcases pd with ⟨rel, res⟩
    cases res with
    | ok c =>
      rw [List.foldl_cons] at h
      have hstep : zipStep (Except.ok acc) (rel, Except.ok c)
          = Except.ok (acc ++ [(joinRel rel, c)]) := rfl
      rw [hstep] at h
      rcases ih _ _ h with ⟨l, hl, har⟩
      refine ⟨(joinRel rel, c) :: l, ?_, ?_⟩
      · show (okEntries rest).map (fun l => (joinRel rel, c) :: l) = _
        rw [hl]
        rfl
      · rw [har, List.append_assoc]
        rfl
    | error e =>
      rw [List.foldl_cons] at h
      have hstep : zipStep (Except.ok acc) (rel, Except.error e)
          = Except.error e := rfl
      rw [hstep, foldl_zipStep_error] at h
      simp at h

theorem okEntries_keys (L : List (List String × Except String (List Nat))) :
    ∀ l, okEntries L = some l →
      l.map Prod.fst = (L.map Prod.fst).map joinRel := by
  induction L with
  | nil =>
    intro l hL
    have : l = [] := by simpa [okEntries] using hL.symm
    simp [this]
  | cons pd rest ih =>
    intro l hL
    rcases pd with ⟨rel, res⟩
    cases res with
    | ok c =>
      have hL' : (okEntries rest).map (fun l => (joinRel rel, c) :: l) = some l := hL
      cases ho : okEntries rest with
      | none => rw [ho] at hL'; simp at hL'
      | some l' =>
        rw [ho] at hL'
        have : (joinRel rel, c) :: l' = l := by simpa using hL'
        subst this
        simp [ih l' ho]
    | error e =>
      have : (none : Option (List (String × List Nat))) = some l := hL
      simp at this

theorem okEntries_mem (L : List (List String × Except String (List Nat))) :
    ∀ l, okEntries L = some l → ∀ (s : String) (c : List Nat),
      ((s, c) ∈ l ↔ ∃ rel, s = joinRel rel ∧ (rel, Except.ok c) ∈ L) := by
  induction L with
  | nil =>
    intro l hL s c
    have : l = [] := by simpa [okEntries] using hL.symm
    subst this
    simp
  | cons pd rest ih =>
    intro l hL s c
    rcases pd with ⟨rel0, res⟩
    cases res with
    | ok c0 =>
      have hL' : (okEntries rest).map (fun l => (joinRel rel0, c0) :: l) = some l := hL
      cases ho : okEntries rest with
      | none => rw [ho] at hL'; simp at hL'
      | some l' =>
        rw [ho] at hL'
        have hll : (joinRel rel0, c0) :: l' = l := by simpa using hL'
        subst hll
        constructor
        · intro hm
          rcases List.mem_cons.mp hm with heq | hm'
          · injection heq with h1 h2
            subst h2
            exact ⟨rel0, h1, List.mem_cons_self _ _⟩
          · rcases (ih l' ho s c).mp hm' with ⟨rel, hs, hmem⟩
            exact ⟨rel, hs, List.mem_cons_of_mem _ hmem⟩
        · rintro ⟨rel, rfl, hmem⟩
          rcases List.mem_cons.mp hmem with heq | hm'
          · injection heq with h1 h2
            injection h2 with h3
            subst h1
            subst h3
            exact List.mem_cons_self _ _
          · exact List.mem_cons_of_mem _ ((ih l' ho _ c).mpr ⟨rel, rfl, hm'⟩)
    | error e =>
      have : (none : Option (List (String × List Nat))) = some l := hL
      simp at this

theorem walkFiles_dir (es : FSEntries) :
    walkFiles (.dir es) = walkRoot es ++ walkDirs es := rfl

/-- C6: on a well-formed source directory a successful archive has only
relative internal paths (none starts with the separator), its entry
names are pairwise distinct, and extraction round-trips: an entry with a
given relative path and content exists exactly when resolving that path
in the source directory yields a file with those bytes. -/
theorem compress_directory_roundtrip (es : FSEntries)
    (ar : List (String × List Nat)) (hv : validEntries es = true)
    (hok : compress_directory (.dir es) = Except.ok ar) :
    (∀ e ∈ ar, e.1.data.head? ≠ some '/')
      ∧ (ar.map Prod.fst).Nodup
      ∧ (∀ rel c, rel ≠ [] → (∀ m ∈ rel, validName m = true) →
          (ar.lookup (joinRel rel) = some c
            ↔ lookupPath (.dir es) rel = some (Except.ok c))) := by
  rw [compress_directory] at hok
  rcases foldl_zipStep_ok (walkFiles (.dir es)) [] ar hok with ⟨l, hL, har⟩
  rw [List.nil_append] at har
  subst har
  have hkeys : ar.map Prod.fst = ((walkFiles (.dir es)).map Prod.fst).map joinRel :=
    okEntries_keys _ ar hL
  have hnd : (ar.map Prod.fst).Nodup := by
    rw [hkeys]
    refine List.Nodup.map_on ?_ (walk_keys_nodup es hv)
    intro x hx y hy hxy
    obtain ⟨hxne, hxval⟩ := walk_key_valid es hv x hx
    obtain ⟨hyne, hyval⟩ := walk_key_valid es hv y hy
    exact joinRel_inj x y hxne hyne hxval hyval hxy
  refine ⟨?_, hnd, ?_⟩
  · intro e he
    have hmem : e.1 ∈ ar.map Prod.fst := List.mem_map.mpr ⟨e, he, rfl⟩
    rw [hkeys] at hmem
    rcases List.mem_map.mp hmem with ⟨rel, hrel, heq⟩
    obtain ⟨hne, hval⟩ := walk_key_valid es hv rel hrel
    rw [← heq]
    exact joinRel_not_absolute rel hne hval
  · intro rel c hne hval
    rw [lookup_eq_some_iff_mem ar (joinRel rel) c hnd,
      okEntries_mem _ ar hL (joinRel rel) c]
    constructor
    · rintro ⟨rel', heq, hmem⟩
      obtain ⟨hne', hval'⟩ := walk_key_valid es hv rel'
        (List.mem_map.mpr ⟨(rel', Except.ok c), hmem, rfl⟩)
      have hrr : rel' = rel := joinRel_inj rel' rel hne' hne hval' hval heq.symm
      subst hrr
      exact (walk_mem_iff es hv rel' (Except.ok c)).mp hmem
    · intro hl
      exact ⟨rel, rfl, (walk_mem_iff es hv rel (Except.ok c)).mpr hl⟩

/-- The entries of the witness directory: one readable file `a.txt`. -/
def entries1 : FSEntries := .cons "a.txt" (.file (.ok helloBytes)) .nil

/-- Witness for C6: the one-file directory archives to one relative
entry and round-trips. -/
theorem compress_directory_roundtrip_witness :
    (∀ e ∈ [("a.txt", helloBytes)], e.1.data.head? ≠ some '/')
      ∧ ((([("a.txt", helloBytes)]).map Prod.fst).Nodup)
      ∧ (∀ rel c, rel ≠ [] → (∀ m ∈ rel, validName m = true) →
          (([("a.txt", helloBytes)]).lookup (joinRel rel) = some c
            ↔ lookupPath (.dir entries1) rel = some (Except.ok c))) :=
  compress_directory_roundtrip entries1 [("a.txt", helloBytes)]
    (by decide) rfl

end IRCollect
